import Mathlib

/-!
Verification of the ruby-text measurement and line-wrapping engine
(`luna/ruby_utils.py`, class `RubyUtils`).

Strings are modelled as `List Char` (Python iterates codepoints; `len`
is the codepoint count).  Functions that can raise (`assert` statements,
`max` of an empty sequence) return `Except String α`, with the error
message standing in for the raised exception.  Everything is translated
clause-by-clause from the Python source.
-/

namespace RubyUtils

/-- A line of text: an ordered sequence of Unicode codepoints. -/
abbrev Line := List Char

/-- The set of codepoints that render double-width (`DOUBLEWIDE_CHARS`
in `unicode_aware_len`). -/
def DOUBLEWIDE_CHARS : List Char := ['―']

/-- `RubyUtils.unicode_aware_len`: each codepoint contributes 1 to the
length, or 2 if it is in `DOUBLEWIDE_CHARS`. -/
def unicode_aware_len : Line → Nat
  | [] => 0
  | c :: cs => (if c ∈ DOUBLEWIDE_CHARS then 2 else 1) + unicode_aware_len cs

/-- The scanning loop of `RubyUtils.remove_ruby_text`.  State:
`pr` = `processing_ruby`, `sm` = `seen_midline`, `ret` = the output
accumulator.  The Python `assert`s become `Except.error`. -/
def remove_ruby_text_go : Line → Bool → Bool → Line → Except String Line
  | [], _, _, ret => .ok ret
  | c :: cs, pr, sm, ret =>
    if c = '<' then
      if pr then .error "Repeated ruby-start encountered in line"
      else remove_ruby_text_go cs true false ret
    else if c = '|' then
      if pr then remove_ruby_text_go cs pr true ret
      else .error "Found ruby-delimiter in non-ruby text for line"
    else if c = '>' then
      if pr then
        if sm then remove_ruby_text_go cs false true ret
        else .error "Found ruby-end without ruby-delimiter for line"
      else .error "Found ruby-end outside ruby context for line"
    else
      if pr = false ∨ sm = false then remove_ruby_text_go cs pr sm (ret ++ [c])
      else remove_ruby_text_go cs pr sm ret

/-- `RubyUtils.remove_ruby_text`: strip `<base|reading>` markup, keeping
only base-level characters. -/
def remove_ruby_text (line : Line) : Except String Line :=
  remove_ruby_text_go line false false []

/-- `RubyUtils.noruby_len`: the length of a line as if it contained no
ruby text; on a malformed line (an `AssertionError` from
`remove_ruby_text`) it falls back to the raw length. -/
def noruby_len (line : Line) : Nat :=
  match remove_ruby_text line with
  | .ok stripped => unicode_aware_len stripped
  | .error _ => unicode_aware_len line

/-- The scanning loop of `RubyUtils.ruby_aware_split_words`.  State:
`acc` = the word accumulator, `pr` = `processing_ruby`, `ret` = the list
of words so far.  Faithful to the Python source, including the
condition `c == ' ' or c == '\n' and not processing_ruby`, which by
Python operator precedence is `c = ' ' ∨ (c = '\n' ∧ pr = false)`. -/
def ruby_aware_split_words_go : Line → Line → Bool → List Line →
    Except String (List Line)
  | [], acc, _, ret => .ok (if acc ≠ [] then ret ++ [acc] else ret)
  | c :: cs, acc, pr, ret =>
    if c = '<' then
      if pr then .error "Encountered repeated ruby-start in line"
      else ruby_aware_split_words_go cs (acc ++ [c]) true ret
    else if c = '>' then
      if pr then ruby_aware_split_words_go cs (acc ++ [c]) false ret
      else .error "Encountered ruby-end without ruby-start in line"
    else if c = ' ' ∨ (c = '\n' ∧ pr = false) then
      ruby_aware_split_words_go cs [] pr
        (ret ++ [acc] ++ if c = '\n' then [['\n']] else [])
    else
      ruby_aware_split_words_go cs (acc ++ [c]) pr ret

/-- `RubyUtils.ruby_aware_split_words`: split a line into words, with a
ruby group intended to count as a single word. -/
def ruby_aware_split_words (line : Line) : Except String (List Line) :=
  ruby_aware_split_words_go line [] false []

/-- The scanning loop of `RubyUtils.apply_control_codes`.  State:
`hp` = `has_pct`, `ic` = `in_cc`, `cc` = `cc_acc`, `out` = the output
accumulator (`processed_line`). -/
def apply_control_codes_go : Line → Bool → Bool → Line → Line →
    Except String Line
  | [], _, _, _, out => .ok out
  | c :: cs, hp, ic, cc, out =>
    if c = '%' then
      apply_control_codes_go cs true ic cc out
    else if hp = true ∧ c = '{' then
      apply_control_codes_go cs false true [] out
    else if ic = true ∧ c = '}' then
      if cc = ['n'] then apply_control_codes_go cs hp false cc (out ++ ['\n'])
      else if cc = ['s'] then apply_control_codes_go cs hp false cc (out ++ [' '])
      else .error "Unhandled control code in line"
    else if ic = true then
      apply_control_codes_go cs hp ic (cc ++ [c]) out
    else
      apply_control_codes_go cs hp ic cc (out ++ [c])

/-- `RubyUtils.apply_control_codes`: expand custom control codes
(`%\x7bn\x7d` forced newline, `%\x7bs\x7d` forced space). -/
def apply_control_codes (text : Line) : Except String Line :=
  apply_control_codes_go text false false [] []

/-- Python's `max` over a non-empty list of naturals (the head is passed
separately; `max([])` is an error handled at the call site). -/
def natMax : Nat → List Nat → Nat
  | x, [] => x
  | x, y :: ys => max x (natMax y ys)

/-- The greedy packing loop of `RubyUtils.linebreak_text`.  Arguments:
the remaining words, `broken` = `broken_lines`, `acc`, `fw` =
`first_word`, `cur` = `start_cursor_pos` (mutated to 0 after a break),
`maxlen` = `max_linelen`.  Returns the final `(broken_lines, acc)`.
`len(acc + ' ' + word)` in Python is `acc.length + 1 + word.length`. -/
def lb_go : List Line → List Line → Line → Bool → Nat → Nat →
    List Line × Line
  | [], broken, acc, _, _, _ => (broken, acc)
  | word :: rest, broken, acc, fw, cur, maxlen =>
    if acc.length + 1 + word.length + cur > maxlen then
      lb_go rest (broken ++ [acc]) (if word = ['\n'] then [] else word) fw 0 maxlen
    else if word = ['\n'] then
      lb_go rest (broken ++ [acc]) [] true 0 maxlen
    else
      lb_go rest broken (if fw then word else acc ++ [' '] ++ word) false cur maxlen

/-- Python's `'\n'.join`. -/
def join_newline : List Line → Line
  | [] => []
  | [l] => l
  | l :: ls => l ++ '\n' :: join_newline ls

/-- `RubyUtils.linebreak_text`: wrap a line to `max_linelen`, starting
at cursor position `start_cursor_pos`.  `max([...])` over the empty
word list raises `ValueError` in Python, modelled as an error. -/
def linebreak_text (line : Line) (max_linelen : Nat)
    (start_cursor_pos : Nat := 0) : Except String Line :=
  if noruby_len line + start_cursor_pos < max_linelen then .ok line
  else
    match ruby_aware_split_words line with
    | .error e => .error e
    | .ok [] => .error "max() arg is an empty sequence"
    | .ok (w :: ws) =>
      if max_linelen < natMax (noruby_len w) (ws.map noruby_len) then .ok line
      else
        let r := lb_go (w :: ws) [] [] true start_cursor_pos max_linelen
        let broken :=
          if r.2 ≠ [] ∨ (w :: ws).getLastD [] = ['\n'] then r.1 ++ [r.2]
          else r.1
        .ok (join_newline broken)

/-- Split a string on newline characters (how the joined output is read
back as display lines; mirrors Python `str.split('\n')`). -/
def splitOnNewline : Line → List Line
  | [] => [[]]
  | c :: cs =>
    if c = '\n' then [] :: splitOnNewline cs
    else
      match splitOnNewline cs with
      | [] => [[c]]
      | p :: ps => (c :: p) :: ps

/-! ### Helper lemmas -/

lemma unicode_aware_len_eq_length {s : Line} (h : ∀ c ∈ s, c ∉ DOUBLEWIDE_CHARS) :
    unicode_aware_len s = s.length := by
  induction s with
  | nil => rfl
  | cons c cs ih =>
    have hc : c ∉ DOUBLEWIDE_CHARS := h c (by simp)
    simp only [unicode_aware_len, if_neg hc, List.length_cons,
      ih fun d hd => h d (List.mem_cons_of_mem _ hd)]
    omega

lemma noruby_len_nil : noruby_len [] = 0 := rfl

lemma le_natMax {y x : Nat} {xs : List Nat} (h : y = x ∨ y ∈ xs) : y ≤ natMax x xs := by
  induction xs generalizing x with
  | nil =>
    simp only [List.not_mem_nil, or_false] at h
    simp [natMax, h]
  | cons z zs ih =>
    simp only [natMax]
    rcases h with h | h
    · exact le_max_of_le_left h.le
    · exact le_max_of_le_right (ih (by simpa using h))

/-- Scanning a run of annotation-free characters from the OUTSIDE state
emits them all verbatim and stays OUTSIDE. -/
lemma rr_go_clean_append (a : Line) (rest ret : Line)
    (h : ∀ c ∈ a, c ≠ '<' ∧ c ≠ '|' ∧ c ≠ '>') :
    remove_ruby_text_go (a ++ rest) false false ret =
      remove_ruby_text_go rest false false (ret ++ a) := by
  induction a generalizing ret with
  | nil => simp
  | cons c cs ih =>
    obtain ⟨h1, h2, h3⟩ := h c (by simp)
    simp only [List.cons_append, remove_ruby_text_go, if_neg h1, if_neg h2,
      if_neg h3, eq_self_iff_true, true_or, or_true, if_true, List.append_eq]
    rw [ih _ fun d hd => h d (List.mem_cons_of_mem _ hd)]
    simp

/-- Stripping an annotation-free line appends it to the accumulator. -/
lemma rr_go_clean (a : Line) (ret : Line)
    (h : ∀ c ∈ a, c ≠ '<' ∧ c ≠ '|' ∧ c ≠ '>') :
    remove_ruby_text_go a false false ret = .ok (ret ++ a) := by
  have := rr_go_clean_append a [] ret h
  simpa [remove_ruby_text_go] using this

/-- Scanning a run of annotation-free characters in state
`processing_ruby ∧ ¬seen_midline` (base segment) emits them all. -/
lemma rr_go_base (b : Line) (ret : Line)
    (h : ∀ c ∈ b, c ≠ '<' ∧ c ≠ '|' ∧ c ≠ '>') :
    remove_ruby_text_go b true false ret = .ok (ret ++ b) := by
  induction b generalizing ret with
  | nil => simp [remove_ruby_text_go]
  | cons c cs ih =>
    obtain ⟨h1, h2, h3⟩ := h c (by simp)
    simp only [remove_ruby_text_go, if_neg h1, if_neg h2, if_neg h3,
      eq_self_iff_true, true_or, or_true, if_true]
    rw [ih _ fun d hd => h d (List.mem_cons_of_mem _ hd)]
    simp

/-- Every character of a successful strip comes from the accumulator or
is a non-delimiter character of the input, and the output is no longer
than accumulator plus input. -/
lemma rr_go_out : ∀ (l : Line) (pr sm : Bool) (ret r : Line),
    remove_ruby_text_go l pr sm ret = .ok r →
    (∀ c ∈ r, c ∈ ret ∨ (c ∈ l ∧ c ≠ '<' ∧ c ≠ '|' ∧ c ≠ '>')) ∧
      r.length ≤ ret.length + l.length := by
  intro l
  induction l with
  | nil =>
    intro pr sm ret r h
    simp only [remove_ruby_text_go, Except.ok.injEq] at h
    subst h
    exact ⟨fun c hc => Or.inl hc, by simp⟩
  | cons c0 cs ih =>
    intro pr sm ret r h
    simp only [remove_ruby_text_go] at h
    by_cases h1 : c0 = '<'
    · rw [if_pos h1] at h
      cases pr with
      | true => simp at h
      | false =>
        simp only [Bool.false_eq_true, if_false] at h
        obtain ⟨hc, hl⟩ := ih true false ret r h
        refine ⟨fun c hcm => ?_, by simp only [List.length_cons]; omega⟩
        rcases hc c hcm with h' | h'
        · exact Or.inl h'
        · exact Or.inr ⟨List.mem_cons_of_mem _ h'.1, h'.2⟩
    · rw [if_neg h1] at h
      by_cases h2 : c0 = '|'
      · rw [if_pos h2] at h
        cases pr with
        | false => simp at h
        | true =>
          simp only [if_true] at h
          obtain ⟨hc, hl⟩ := ih true true ret r h
          refine ⟨fun c hcm => ?_, by simp only [List.length_cons]; omega⟩
          rcases hc c hcm with h' | h'
          · exact Or.inl h'
          · exact Or.inr ⟨List.mem_cons_of_mem _ h'.1, h'.2⟩
      · rw [if_neg h2] at h
        by_cases h3 : c0 = '>'
        · rw [if_pos h3] at h
          cases pr with
          | false => simp at h
          | true =>
            cases sm with
            | false => simp at h
            | true =>
              simp only [if_true] at h
              obtain ⟨hc, hl⟩ := ih false true ret r h
              refine ⟨fun c hcm => ?_, by simp only [List.length_cons]; omega⟩
              rcases hc c hcm with h' | h'
              · exact Or.inl h'
              · exact Or.inr ⟨List.mem_cons_of_mem _ h'.1, h'.2⟩
        · rw [if_neg h3] at h
          by_cases h4 : pr = false ∨ sm = false
          · rw [if_pos h4] at h
            obtain ⟨hc, hl⟩ := ih pr sm (ret ++ [c0]) r h
            constructor
            · intro c hcm
              rcases hc c hcm with h' | h'
              · rcases List.mem_append.mp h' with h'' | h''
                · exact Or.inl h''
                · have : c = c0 := by simpa using h''
                  subst this
                  exact Or.inr ⟨List.mem_cons_self _ _, h1, h2, h3⟩
              · exact Or.inr ⟨List.mem_cons_of_mem _ h'.1, h'.2⟩
            · simp only [List.length_append, List.length_cons,
                List.length_nil] at hl ⊢
              omega
          · rw [if_neg h4] at h
            obtain ⟨hc, hl⟩ := ih pr sm ret r h
            refine ⟨fun c hcm => ?_, by simp only [List.length_cons]; omega⟩
            rcases hc c hcm with h' | h'
            · exact Or.inl h'
            · exact Or.inr ⟨List.mem_cons_of_mem _ h'.1, h'.2⟩

/-- Without double-width characters the ruby-stripped measured width of
a string never exceeds its raw codepoint count, whether stripping
succeeds or falls back. -/
lemma noruby_len_le_length {s : Line} (h : ∀ c ∈ s, c ∉ DOUBLEWIDE_CHARS) :
    noruby_len s ≤ s.length := by
  rcases hrr : remove_ruby_text s with e | r
  · simp only [noruby_len, hrr]
    rw [unicode_aware_len_eq_length h]
  · simp only [noruby_len, hrr]
    obtain ⟨hchars, hlen⟩ := rr_go_out s false false [] r hrr
    have hdw : ∀ c ∈ r, c ∉ DOUBLEWIDE_CHARS := by
      intro c hc
      rcases hchars c hc with h' | h'
      · exact absurd h' (List.not_mem_nil _)
      · exact h c h'.1
    rw [unicode_aware_len_eq_length hdw]
    simp only [List.length_nil] at hlen
    omega

/-- Any character property that holds on the input line, the
accumulator, the words emitted so far and the newline marker holds on
every character of every word the segmenter outputs. -/
lemma split_go_P (P : Char → Prop) (hnl : P '\n') :
    ∀ (l acc : Line) (pr : Bool) (ret ws : List Line),
      ruby_aware_split_words_go l acc pr ret = .ok ws →
      (∀ c ∈ l, P c) → (∀ c ∈ acc, P c) → (∀ w ∈ ret, ∀ c ∈ w, P c) →
      ∀ w ∈ ws, ∀ c ∈ w, P c := by
  intro l
  induction l with
  | nil =>
    intro acc pr ret ws h hl hacc hret
    simp only [ruby_aware_split_words_go] at h
    by_cases hne : acc ≠ []
    · rw [if_pos hne] at h
      cases h
      intro w hw
      rcases List.mem_append.mp hw with h' | h'
      · exact hret w h'
      · have : w = acc := by simpa using h'
        exact this ▸ hacc
    · rw [if_neg hne] at h
      cases h
      exact hret
  | cons c0 cs ih =>
    intro acc pr ret ws h hl hacc hret
    have hc0 : P c0 := hl c0 (List.mem_cons_self _ _)
    have hl' : ∀ c ∈ cs, P c := fun c hc => hl c (List.mem_cons_of_mem _ hc)
    have haccx : ∀ c ∈ acc ++ [c0], P c := by
      intro c hc
      rcases List.mem_append.mp hc with h' | h'
      · exact hacc c h'
      · have : c = c0 := by simpa using h'
        exact this ▸ hc0
    simp only [ruby_aware_split_words_go] at h
    by_cases h1 : c0 = '<'
    · rw [if_pos h1] at h
      cases pr with
      | true => simp at h
      | false =>
        simp only [Bool.false_eq_true, if_false] at h
        exact ih _ _ _ _ h hl' haccx hret
    · rw [if_neg h1] at h
      by_cases h2 : c0 = '>'
      · rw [if_pos h2] at h
        cases pr with
        | false => simp at h
        | true =>
          simp only [if_true] at h
          exact ih _ _ _ _ h hl' haccx hret
      · rw [if_neg h2] at h
        by_cases h3 : c0 = ' ' ∨ (c0 = '\n' ∧ pr = false)
        · rw [if_pos h3] at h
          refine ih _ _ _ _ h hl' (by simp) ?_
          intro w hw c hc
          rcases List.mem_append.mp hw with h' | h'
          · rcases List.mem_append.mp h' with h'' | h''
            · exact hret w h'' c hc
            · have : w = acc := by simpa using h''
              exact hacc c (this ▸ hc)
          · by_cases hn : c0 = '\n'
            · rw [if_pos hn] at h'
              have : w = ['\n'] := by simpa using h'
              subst this
              have : c = '\n' := by simpa using hc
              exact this ▸ hnl
            · rw [if_neg hn] at h'
              exact absurd h' (List.not_mem_nil _)
        · rw [if_neg h3] at h
          exact ih _ _ _ _ h hl' haccx hret

/-- The packing-loop invariant: if every word has ruby-stripped width at
most `maxlen`, contains no double-width characters, and is either the
newline marker or newline-free, and the accumulated state satisfies the
same bound, then every flushed line and the final accumulator satisfy
it. -/
lemma lb_go_inv (maxlen : Nat) :
    ∀ (ws broken : List Line) (acc : Line) (fw : Bool) (cur : Nat),
      (∀ w ∈ ws, noruby_len w ≤ maxlen ∧ (∀ c ∈ w, c ∉ DOUBLEWIDE_CHARS) ∧
        (w = ['\n'] ∨ '\n' ∉ w)) →
      (∀ l ∈ broken, noruby_len l ≤ maxlen ∧ '\n' ∉ l) →
      noruby_len acc ≤ maxlen →
      (∀ c ∈ acc, c ∉ DOUBLEWIDE_CHARS) → '\n' ∉ acc →
      (∀ l ∈ (lb_go ws broken acc fw cur maxlen).1,
          noruby_len l ≤ maxlen ∧ '\n' ∉ l) ∧
        noruby_len (lb_go ws broken acc fw cur maxlen).2 ≤ maxlen ∧
        (∀ c ∈ (lb_go ws broken acc fw cur maxlen).2, c ∉ DOUBLEWIDE_CHARS) ∧
        '\n' ∉ (lb_go ws broken acc fw cur maxlen).2 := by
  intro ws
  induction ws with
  | nil =>
    intro broken acc fw cur _ hbroken hacc1 hacc2 hacc3
    exact ⟨hbroken, hacc1, hacc2, hacc3⟩
  | cons word rest ih =>
    intro broken acc fw cur hws hbroken hacc1 hacc2 hacc3
    obtain ⟨hw1, hw2, hw3⟩ := hws word (List.mem_cons_self _ _)
    have hws' := fun w hw => hws w (List.mem_cons_of_mem _ hw)
    have hbroken' : ∀ l ∈ broken ++ [acc], noruby_len l ≤ maxlen ∧ '\n' ∉ l := by
      intro l hl
      rcases List.mem_append.mp hl with h' | h'
      · exact hbroken l h'
      · have : l = acc := by simpa using h'
        exact this ▸ ⟨hacc1, hacc3⟩
    simp only [lb_go]
    by_cases hov : acc.length + 1 + word.length + cur > maxlen
    · rw [if_pos hov]
      by_cases hwnl : word = ['\n']
      · rw [if_pos hwnl]
        exact ih _ _ _ _ hws' hbroken' (by rw [noruby_len_nil]; omega)
          (by simp) (by simp)
      · rw [if_neg hwnl]
        exact ih _ _ _ _ hws' hbroken' hw1 hw2 (hw3.resolve_left hwnl)
    · rw [if_neg hov]
      by_cases hwnl : word = ['\n']
      · rw [if_pos hwnl]
        exact ih _ _ _ _ hws' hbroken' (by rw [noruby_len_nil]; omega)
          (by simp) (by simp)
      · rw [if_neg hwnl]
        have hwnl' : '\n' ∉ word := hw3.resolve_left hwnl
        cases fw with
        | true =>
          simp only [if_true]
          exact ih _ _ _ _ hws' hbroken hw1 hw2 hwnl'
        | false =>
          simp only [Bool.false_eq_true, if_false]
          have hdw : ∀ c ∈ acc ++ [' '] ++ word, c ∉ DOUBLEWIDE_CHARS := by
            intro c hc
            rcases List.mem_append.mp hc with h' | h'
            · rcases List.mem_append.mp h' with h'' | h''
              · exact hacc2 c h''
              · have : c = ' ' := by simpa using h''
                subst this
                decide
            · exact hw2 c h'
          have hlen : noruby_len (acc ++ [' '] ++ word) ≤ maxlen := by
            have := noruby_len_le_length hdw
            simp only [List.length_append, List.length_cons, List.length_nil]
              at this
            omega
          have hnl : '\n' ∉ acc ++ [' '] ++ word := by
            intro hc
            rcases List.mem_append.mp hc with h' | h'
            · rcases List.mem_append.mp h' with h'' | h''
              · exact hacc3 h''
              · simp at h''
            · exact hwnl' h'
          exact ih _ _ _ _ hws' hbroken hlen hdw hnl

/-- Splitting a newline-free string on newlines yields that string
alone. -/
lemma splitOnNewline_no_nl {p : Line} (h : '\n' ∉ p) :
    splitOnNewline p = [p] := by
  induction p with
  | nil => rfl
  | cons c cs ih =>
    have hc : ¬ c = '\n' := by
      rintro rfl
      exact h (List.mem_cons_self _ _)
    rw [splitOnNewline, if_neg hc, ih fun hh => h (List.mem_cons_of_mem _ hh)]

/-- Splitting a newline-free prefix followed by a newline peels off that
prefix. -/
lemma splitOnNewline_cons_nl {p t : Line} (h : '\n' ∉ p) :
    splitOnNewline (p ++ '\n' :: t) = p :: splitOnNewline t := by
  induction p with
  | nil => simp [splitOnNewline]
  | cons c cs ih =>
    have hc : ¬ c = '\n' := by
      rintro rfl
      exact h (List.mem_cons_self _ _)
    rw [List.cons_append, splitOnNewline, if_neg hc,
      ih fun hh => h (List.mem_cons_of_mem _ hh)]

/-- Reading back the newline-join of newline-free pieces gives exactly
those pieces (or the empty line when there are none). -/
lemma mem_join_newline_split :
    ∀ (pieces : List Line), (∀ p ∈ pieces, '\n' ∉ p) →
      ∀ l ∈ splitOnNewline (join_newline pieces), l ∈ pieces ∨ l = [] := by
  intro pieces
  induction pieces with
  | nil =>
    intro _ l hl
    simp only [join_newline, splitOnNewline, List.mem_singleton] at hl
    exact Or.inr hl
  | cons p rest ih =>
    intro h l hl
    cases rest with
    | nil =>
      simp only [join_newline] at hl
      rw [splitOnNewline_no_nl (h p (List.mem_cons_self _ _))] at hl
      have : l = p := by simpa using hl
      exact Or.inl (this ▸ List.mem_cons_self _ _)
    | cons q rest' =>
      have hj : join_newline (p :: q :: rest') =
          p ++ '\n' :: join_newline (q :: rest') := rfl
      rw [hj, splitOnNewline_cons_nl (h p (List.mem_cons_self _ _))] at hl
      rcases List.mem_cons.mp hl with h' | h'
      · exact Or.inl (h' ▸ List.mem_cons_self _ _)
      · rcases ih (fun x hx => h x (List.mem_cons_of_mem _ hx)) l h' with h'' | h''
        · exact Or.inl (List.mem_cons_of_mem _ h'')
        · exact Or.inr h''

/-- Under the stated hypotheses `linebreak_text` runs the packing loop
and joins the flushed lines. -/
lemma linebreak_text_eq (line : Line) (maxlen cur : Nat) (w0 : Line)
    (ws : List Line)
    (hfast : ¬ (noruby_len line + cur < maxlen))
    (hsplit : ruby_aware_split_words line = .ok (w0 :: ws))
    (hunb : ¬ (maxlen < natMax (noruby_len w0) (ws.map noruby_len))) :
    linebreak_text line maxlen cur = .ok (join_newline
      (if (lb_go (w0 :: ws) [] [] true cur maxlen).2 ≠ [] ∨
          (w0 :: ws).getLastD [] = ['\n']
        then (lb_go (w0 :: ws) [] [] true cur maxlen).1 ++
          [(lb_go (w0 :: ws) [] [] true cur maxlen).2]
        else (lb_go (w0 :: ws) [] [] true cur maxlen).1)) := by
  simp only [linebreak_text, if_neg hfast, hsplit, if_neg hunb]

/-! ### Claim theorems (easy half) -/

/-- Claim C8: `unicode_aware_len` adds 1 per codepoint plus an extra 1 per
double-width codepoint, so for `n` double-wide occurrences among `m`
codepoints the result is `m + n`; it is a total function into `Nat`,
hence pure and non-negative. -/
theorem claim_C8 (s : Line) :
    unicode_aware_len s =
      s.length + s.countP (fun c => decide (c ∈ DOUBLEWIDE_CHARS)) := by
  induction s with
  | nil => rfl
  | cons c cs ih =>
    by_cases hc : c ∈ DOUBLEWIDE_CHARS <;>
      simp [unicode_aware_len, hc, ih, List.countP_cons] <;> omega

/-- Claim C8 witness: the property evaluated at a concrete string with
one double-width codepoint among three. -/
theorem claim_C8_witness :
    unicode_aware_len "a―b".toList =
      "a―b".toList.length +
        "a―b".toList.countP (fun c => decide (c ∈ DOUBLEWIDE_CHARS)) :=
  claim_C8 "a―b".toList

/-- Claim C2 (code bug in the source): by Python operator precedence the
flush condition in `ruby_aware_split_words` is
`c == ' ' or (c == '\n' and not processing_ruby)`, so a space inside a
ruby annotation flushes the accumulator, contradicting the source's own
comments.  Evaluating the segmenter at `"<a b|c>"` produces a unit
boundary strictly inside the annotation. -/
theorem claim_C2 :
    ruby_aware_split_words "<a b|c>".toList =
      .ok [['<', 'a'], ['b', '|', 'c', '>']] := by
  rfl

/-- Claim C4 counterexample: the claim says a non-`\x7b` character after
`%` returns the scanner to NORMAL so a later `\x7b` does not open a
control code and `apply_control_codes "%a\x7bn\x7d"` yields `"a\x7bn\x7d"`.
In the source `has_pct` is never reset on such a character, so the later
`\x7b` does open a control code: the result is `"a\n"`. -/
theorem claim_C4_cex :
    apply_control_codes "%a{n}".toList = .ok "a\n".toList ∧
      "a\n".toList ≠ "a{n}".toList := by
  exact ⟨rfl, by decide⟩

/-- Claim C4 (amended): after `%` is followed by a character other than
`\x7b` (and other than `%`), that character is emitted as in NORMAL but
the pending-percent flag stays set, so a `\x7b` appearing later still
opens a control code; the `%` itself is dropped; in particular
`apply_control_codes "%a\x7bn\x7d" = "a\n"`. -/
theorem claim_C4 :
    (∀ (c : Char) (cs cc out : Line), c ≠ '%' → c ≠ '{' →
      apply_control_codes_go (c :: cs) true false cc out =
        apply_control_codes_go cs true false cc (out ++ [c])) ∧
    apply_control_codes "%a{n}".toList = .ok "a\n".toList := by
  constructor
  · intro c cs cc out h1 h2
    simp [apply_control_codes_go, h1, h2]
  · rfl

/-- Claim C4 witness: the seen-percent step evaluated at the character
`a`, showing the flag survives. -/
theorem claim_C4_witness :
    apply_control_codes_go ['a'] true false [] [] =
      apply_control_codes_go [] true false [] ['a'] :=
  claim_C4.1 'a' [] [] [] (by decide) (by decide)

/-- Claim C7: `apply_control_codes` expands each `%\x7bn\x7d` to a newline
and each `%\x7bs\x7d` to a space, passes other NORMAL-state characters
through verbatim, and fails on any other closed code name; in particular
`apply_control_codes "a%\x7bn\x7db%\x7bs\x7dc" = "a\nb c"`. -/
theorem claim_C7 :
    apply_control_codes "a%{n}b%{s}c".toList = .ok "a\nb c".toList ∧
    (∀ (cs cc out : Line),
      apply_control_codes_go ('%' :: '{' :: 'n' :: '}' :: cs) false false cc out =
        apply_control_codes_go cs false false ['n'] (out ++ ['\n'])) ∧
    (∀ (cs cc out : Line),
      apply_control_codes_go ('%' :: '{' :: 's' :: '}' :: cs) false false cc out =
        apply_control_codes_go cs false false ['s'] (out ++ [' '])) ∧
    (∀ (c : Char) (cs cc out : Line), c ≠ '%' →
      apply_control_codes_go (c :: cs) false false cc out =
        apply_control_codes_go cs false false cc (out ++ [c])) ∧
    (∀ (cs cc out : Line) (hp : Bool), cc ≠ ['n'] → cc ≠ ['s'] →
      apply_control_codes_go ('}' :: cs) hp true cc out =
        .error "Unhandled control code in line") := by
  refine ⟨rfl, fun cs cc out => rfl, fun cs cc out => rfl, ?_, ?_⟩
  · intro c cs cc out h1
    simp [apply_control_codes_go, h1]
  · intro cs cc out hp h1 h2
    simp [apply_control_codes_go, h1, h2]

/-- Claim C7 witness: closing an unknown control code name (the empty
name) is a fatal error, evaluated concretely. -/
theorem claim_C7_witness :
    apply_control_codes_go ['}'] false true [] [] =
      .error "Unhandled control code in line" :=
  claim_C7.2.2.2.2 [] [] [] false (by decide) (by decide)

/-- Claim C10: on the empty line with `start_cursor_pos ≥ max_linelen`,
the fast path does not return and Python's `max` is taken over an empty
sequence, so `linebreak_text` raises instead of returning a string. -/
theorem claim_C10 (max_linelen start_cursor_pos : Nat)
    (h : max_linelen ≤ start_cursor_pos) :
    linebreak_text [] max_linelen start_cursor_pos =
      .error "max() arg is an empty sequence" := by
  unfold linebreak_text
  rw [if_neg (by simp only [noruby_len_nil]; omega)]
  rfl

/-- Claim C10 witness: the empty line with cursor 3 and width 3. -/
theorem claim_C10_witness :
    linebreak_text [] 3 3 = .error "max() arg is an empty sequence" :=
  claim_C10 3 3 (by decide)

/-- Claim C5 counterexample: the claim says the overflow test for the
first word on a line uses the word's width alone, so a first word that
fits exactly is appended with no break and no empty line.  On `"abc"`
with `max_linelen = 3`, cursor 0, the first word has width 3 ≤ 3, yet
the source tests `len('' + ' ' + word)` = 4 > 3, breaks, and emits an
empty first line. -/
theorem claim_C5_cex :
    noruby_len "abc".toList + 0 ≤ 3 ∧
    linebreak_text "abc".toList 3 0 = .ok "\nabc".toList ∧
    splitOnNewline "\nabc".toList = [[], "abc".toList] := by
  exact ⟨by decide, rfl, by decide⟩

/-- Claim C5 (amended): the overflow test always charges one joining
space, even for the first word on the current line: with an empty
accumulator the test is `1 + len(word) + cursor > max_linelen`.  If it
fires, the empty accumulator is flushed (an empty output line) and the
word starts the next line; only if `1 + len(word) + cursor ≤ max_linelen`
is the word appended without a break. -/
theorem claim_C5 (word : Line) (rest broken : List Line) (fw : Bool)
    (cur maxlen : Nat) (hword : word ≠ ['\n']) :
    (1 + word.length + cur > maxlen →
      lb_go (word :: rest) broken [] fw cur maxlen =
        lb_go rest (broken ++ [[]]) word fw 0 maxlen) ∧
    (1 + word.length + cur ≤ maxlen →
      lb_go (word :: rest) broken [] fw cur maxlen =
        lb_go rest broken (if fw then word else ' ' :: word) false cur maxlen) := by
  constructor
  · intro hgt
    have ht : List.length ([] : Line) + 1 + word.length + cur > maxlen := by
      simp only [List.length_nil]; omega
    simp only [lb_go, if_pos ht, if_neg hword]
  · intro hle
    have ht : ¬ (List.length ([] : Line) + 1 + word.length + cur > maxlen) := by
      simp only [List.length_nil]; omega
    simp only [lb_go, if_neg ht, if_neg hword]
    rfl

/-- Claim C5 witness: a first word of width 3 with cursor 0 and
`max_linelen = 3` triggers the break path with an empty flushed line. -/
theorem claim_C5_witness :
    lb_go [['a', 'b', 'c']] [] [] true 0 3 =
      lb_go [] ([] ++ [[]]) ['a', 'b', 'c'] true 0 3 :=
  (claim_C5 ['a', 'b', 'c'] [] [] true 0 3 (by decide)).1 (by decide)

/-- Claim C6: when the fast path does not return and some word unit's
ruby-stripped width exceeds `max_linelen`, `linebreak_text` returns the
original line unchanged. -/
theorem claim_C6 (line : Line) (maxlen cur : Nat) (ws : List Line)
    (hfast : ¬ (noruby_len line + cur < maxlen))
    (hsplit : ruby_aware_split_words line = .ok ws)
    (hbig : ∃ w ∈ ws, maxlen < noruby_len w) :
    linebreak_text line maxlen cur = .ok line := by
  obtain ⟨w0, hw0, hlt⟩ := hbig
  unfold linebreak_text
  rw [if_neg hfast, hsplit]
  cases ws with
  | nil => exact absurd hw0 (List.not_mem_nil _)
  | cons w tail =>
    have hmax : maxlen < natMax (noruby_len w) (tail.map noruby_len) := by
      refine lt_of_lt_of_le hlt (le_natMax ?_)
      rcases List.mem_cons.mp hw0 with h | h
      · exact Or.inl (by rw [h])
      · exact Or.inr (List.mem_map_of_mem _ h)
    simp only [if_pos hmax]

set_option maxRecDepth 40000 in
/-- Claim C6 witness: a line of 100 `x` characters with `max_linelen = 10`
and cursor 0 is returned unchanged. -/
theorem claim_C6_witness :
    linebreak_text (List.replicate 100 'x') 10 0 =
      .ok (List.replicate 100 'x') :=
  claim_C6 (List.replicate 100 'x') 10 0 [List.replicate 100 'x']
    (by decide) (by rfl) ⟨List.replicate 100 'x', by simp, by decide⟩

/-- Claim C1 counterexample: the claim says every output line has
measured display width at most `max_linelen` unless the input is
returned unchanged.  The packing test measures raw codepoint count, so
double-width characters overflow: on `"―― ―― x"` with `max_linelen = 5`
the output differs from the input and contains the display line
`"―― ――"` of measured width 9 > 5. -/
theorem claim_C1_cex :
    linebreak_text "―― ―― x".toList 5 0 = .ok "―― ――\nx".toList ∧
    "―― ――\nx".toList ≠ "―― ―― x".toList ∧
    "―― ――".toList ∈ splitOnNewline "―― ――\nx".toList ∧
    noruby_len "―― ――".toList = 9 ∧ 5 < 9 := by
  exact ⟨rfl, by decide, by decide, rfl, by decide⟩

/-- Claim C3 counterexample: the claim says a line with an unmatched `<`
(no following `|` and `>`) makes `remove_ruby_text` raise while
`noruby_len` returns the raw width.  On `"a<b"` the source raises
nothing: the `<` is dropped, the rest is kept as base text, and
`noruby_len` returns the stripped width 2, not the raw width 3. -/
theorem claim_C3_cex :
    remove_ruby_text "a<b".toList = .ok "ab".toList ∧
    noruby_len "a<b".toList = 2 ∧
    unicode_aware_len "a<b".toList = 3 :=
  ⟨rfl, rfl, rfl⟩

/-- Claim C3 (amended): a line with a single unmatched `<` and no other
delimiter raises nothing from `remove_ruby_text`: the `<` is dropped and
the following characters are kept as base text, and `noruby_len` returns
the width of that stripped result.  Malformed lines that do raise — such
as one containing `|` with no preceding `<` — make `noruby_len` fall
back to the raw unstripped width without raising. -/
theorem claim_C3 :
    (∀ a b : Line, (∀ c ∈ a, c ≠ '<' ∧ c ≠ '|' ∧ c ≠ '>') →
      (∀ c ∈ b, c ≠ '<' ∧ c ≠ '|' ∧ c ≠ '>') →
      remove_ruby_text (a ++ '<' :: b) = .ok (a ++ b) ∧
        noruby_len (a ++ '<' :: b) = unicode_aware_len (a ++ b)) ∧
    remove_ruby_text "a|b".toList =
      .error "Found ruby-delimiter in non-ruby text for line" ∧
    noruby_len "a|b".toList = unicode_aware_len "a|b".toList := by
  refine ⟨?_, rfl, rfl⟩
  intro a b ha hb
  have hstrip : remove_ruby_text (a ++ '<' :: b) = .ok (a ++ b) := by
    unfold remove_ruby_text
    rw [rr_go_clean_append a ('<' :: b) [] ha]
    simp only [remove_ruby_text_go, if_pos rfl, Bool.false_eq_true, if_false]
    simpa using rr_go_base b ([] ++ a) hb
  exact ⟨hstrip, by simp only [noruby_len, hstrip]⟩

/-- Claim C3 witness: the amended statement evaluated at `"a<b"`. -/
theorem claim_C3_witness :
    remove_ruby_text ['a', '<', 'b'] = .ok ['a', 'b'] ∧
      noruby_len ['a', '<', 'b'] = unicode_aware_len ['a', 'b'] :=
  claim_C3.1 ['a'] ['b'] (by decide) (by decide)

/-- Claim C9: `remove_ruby_text` is idempotent — it leaves every
annotation-free line unchanged, and whenever it succeeds, running it
again on the result returns that result unchanged. -/
theorem claim_C9 :
    (∀ l : Line, (∀ c ∈ l, c ≠ '<' ∧ c ≠ '|' ∧ c ≠ '>') →
      remove_ruby_text l = .ok l) ∧
    (∀ l r : Line, remove_ruby_text l = .ok r →
      remove_ruby_text r = .ok r) := by
  have hclean : ∀ l : Line, (∀ c ∈ l, c ≠ '<' ∧ c ≠ '|' ∧ c ≠ '>') →
      remove_ruby_text l = .ok l := by
    intro l h
    unfold remove_ruby_text
    simpa using rr_go_clean l [] h
  refine ⟨hclean, fun l r hok => hclean r ?_⟩
  intro c hc
  rcases (rr_go_out l false false [] r hok).1 c hc with h' | h'
  · exact absurd h' (List.not_mem_nil _)
  · exact h'.2

/-- Claim C9 witness: stripping the already-stripped result of
stripping `"<a|b>c"` changes nothing. -/
theorem claim_C9_witness :
    remove_ruby_text ['a', 'c'] = .ok ['a', 'c'] :=
  claim_C9.2 "<a|b>c".toList ['a', 'c'] (by rfl)

/-- Claim C1 (amended): for lines containing no double-width codepoints
(and no newline buried inside a word unit), every line in the output of
`linebreak_text` has measured display width at most `max_linelen`,
except for the unchanged-return paths (fast path, unbreakable word,
segmentation error), which the hypotheses exclude.  The restriction is
forced: the packing test measures raw codepoint count, so double-width
characters can overflow the budget (see the counterexample). -/
theorem claim_C1 (line : Line) (maxlen cur : Nat) (w0 : Line) (ws : List Line)
    (hdw : ∀ c ∈ line, c ∉ DOUBLEWIDE_CHARS)
    (hsplit : ruby_aware_split_words line = .ok (w0 :: ws))
    (hnlw : ∀ w ∈ w0 :: ws, w = ['\n'] ∨ '\n' ∉ w)
    (hfast : ¬ (noruby_len line + cur < maxlen))
    (hunb : ¬ (maxlen < natMax (noruby_len w0) (ws.map noruby_len))) :
    ∃ out, linebreak_text line maxlen cur = .ok out ∧
      ∀ l ∈ splitOnNewline out, noruby_len l ≤ maxlen := by
  have hwords : ∀ w ∈ w0 :: ws, noruby_len w ≤ maxlen ∧
      (∀ c ∈ w, c ∉ DOUBLEWIDE_CHARS) ∧ (w = ['\n'] ∨ '\n' ∉ w) := by
    intro w hw
    refine ⟨?_, ?_, hnlw w hw⟩
    · have hle : noruby_len w ≤ natMax (noruby_len w0) (ws.map noruby_len) := by
        apply le_natMax
        rcases List.mem_cons.mp hw with h | h
        · exact Or.inl (by rw [h])
        · exact Or.inr (List.mem_map_of_mem _ h)
      omega
    · intro c hc
      exact split_go_P (fun d => d ∉ DOUBLEWIDE_CHARS) (by decide) line [] false
        [] _ hsplit hdw (by simp) (by simp) w hw c hc
  have hinv := lb_go_inv maxlen (w0 :: ws) [] [] true cur hwords
    (by simp) (by rw [noruby_len_nil]; omega) (by simp) (by simp)
  refine ⟨_, linebreak_text_eq line maxlen cur w0 ws hfast hsplit hunb, ?_⟩
  set r := lb_go (w0 :: ws) [] [] true cur maxlen with hr
  have hpieces : ∀ p ∈ (if r.2 ≠ [] ∨ (w0 :: ws).getLastD [] = ['\n']
      then r.1 ++ [r.2] else r.1), noruby_len p ≤ maxlen ∧ '\n' ∉ p := by
    intro p hp
    by_cases hcond : r.2 ≠ [] ∨ (w0 :: ws).getLastD [] = ['\n']
    · rw [if_pos hcond] at hp
      rcases List.mem_append.mp hp with h' | h'
      · exact hinv.1 p h'
      · have : p = r.2 := by simpa using h'
        subst this
        exact ⟨hinv.2.1, hinv.2.2.2⟩
    · rw [if_neg hcond] at hp
      exact hinv.1 p hp
  intro l hl
  rcases mem_join_newline_split _ (fun p hp => (hpieces p hp).2) l hl with h | h
  · exact (hpieces l h).1
  · rw [h, noruby_len_nil]
    omega

/-- Claim C1 witness: wrapping `"a b c d"` at width 3 produces
`"a b"` and `"c d"`, both of display width at most 3. -/
theorem claim_C1_witness :
    ∃ out, linebreak_text "a b c d".toList 3 0 = .ok out ∧
      ∀ l ∈ splitOnNewline out, noruby_len l ≤ 3 :=
  claim_C1 "a b c d".toList 3 0 ['a'] [['b'], ['c'], ['d']]
    (by decide) (by rfl) (by decide) (by decide) (by decide)

end RubyUtils
